import Mathlib

/-!
# Verification of ethaddrgen's core (src/main.rs)

A shallow embedding of the vanity-address search tool `ethaddrgen`.
Strings are modelled as `List Char` (pattern and address content is ASCII,
where Rust's byte-wise `str` order and byte slicing agree with the
character-wise model).  Rust `u32` arithmetic is `Nat` reduced modulo `2^32`.
External crates (`secp256k1`, `tiny_keccak`, `regex`) are not code of this
repository; they enter the model as function parameters or as an abstract
matching core, with exactly the interface the source relies on.
-/

namespace Ethaddrgen

/-! ## Constants (main.rs lines 27-30) -/

def ADDRESS_LENGTH : Nat := 40

def ADDRESS_BYTES : Nat := ADDRESS_LENGTH / 2

def KECCAK_OUTPUT_BYTES : Nat := 32

def ADDRESS_BYTE_INDEX : Nat := KECCAK_OUTPUT_BYTES - ADDRESS_BYTES

/-! ## String comparison

Rust compares `String`s with `Ord::cmp`: lexicographic order on the UTF-8
bytes.  All strings that reach a comparison in this program are ASCII
(lowercase hex), where byte order coincides with character (codepoint)
order, so the model compares `List Char` lexicographically. -/

def cmpChar (a b : Char) : Ordering :=
  if a < b then Ordering.lt else if a = b then Ordering.eq else Ordering.gt

def cmpStr : List Char → List Char → Ordering
  | [], [] => Ordering.eq
  | [], _ :: _ => Ordering.lt
  | _ :: _, [] => Ordering.gt
  | a :: xs, b :: ys =>
    match cmpChar a b with
    | Ordering.eq => cmpStr xs ys
    | o => o

/-- `a ≤ b` in the string order: the Boolean order `Vec::sort` sorts by. -/
def strLe (a b : List Char) : Bool :=
  match cmpStr a b with
  | Ordering.gt => false
  | _ => true

theorem cmpChar_eq_lt {a b : Char} : cmpChar a b = Ordering.lt ↔ a < b := by
  unfold cmpChar
  split_ifs with h1 h2
  · exact iff_of_true rfl h1
  · exact iff_of_false (by simp) (by rw [h2]; exact lt_irrefl b)
  · exact iff_of_false (by simp) h1

theorem cmpChar_eq_eq {a b : Char} : cmpChar a b = Ordering.eq ↔ a = b := by
  unfold cmpChar
  split_ifs with h1 h2
  · exact iff_of_false (by simp) (ne_of_lt h1)
  · exact iff_of_true rfl h2
  · exact iff_of_false (by simp) h2

theorem cmpChar_eq_gt {a b : Char} : cmpChar a b = Ordering.gt ↔ b < a := by
  unfold cmpChar
  split_ifs with h1 h2
  · exact iff_of_false (by simp) (not_lt.mpr (le_of_lt h1))
  · exact iff_of_false (by simp) (not_lt.mpr (le_of_eq h2))
  · exact iff_of_true rfl (lt_of_le_of_ne (le_of_not_lt h1) (fun he => h2 he.symm))

theorem cmpStr_cons_of_lt {x y : Char} {xs ys : List Char} (h : cmpChar x y = Ordering.lt) :
    cmpStr (x :: xs) (y :: ys) = Ordering.lt := by
  simp [cmpStr, h]

theorem cmpStr_cons_of_eq {x y : Char} {xs ys : List Char} (h : cmpChar x y = Ordering.eq) :
    cmpStr (x :: xs) (y :: ys) = cmpStr xs ys := by
  simp [cmpStr, h]

theorem cmpStr_cons_of_gt {x y : Char} {xs ys : List Char} (h : cmpChar x y = Ordering.gt) :
    cmpStr (x :: xs) (y :: ys) = Ordering.gt := by
  simp [cmpStr, h]

theorem cmpStr_eq_eq : ∀ {a b : List Char}, cmpStr a b = Ordering.eq ↔ a = b := by
  intro a
  induction a with
  | nil => intro b; cases b <;> simp [cmpStr]
  | cons x xs ih =>
    intro b
    cases b with
    | nil => simp [cmpStr]
    | cons y ys =>
      rcases hc : cmpChar x y with _ | _ | _
      · rw [cmpStr_cons_of_lt hc]
        refine iff_of_false (by simp) ?_
        intro h
        injection h with hx hxs
        rw [cmpChar_eq_eq.mpr hx] at hc
        exact Ordering.noConfusion hc
      · have hx : x = y := cmpChar_eq_eq.mp hc
        rw [cmpStr_cons_of_eq hc, hx]
        simp [ih]
      · rw [cmpStr_cons_of_gt hc]
        refine iff_of_false (by simp) ?_
        intro h
        injection h with hx hxs
        rw [cmpChar_eq_eq.mpr hx] at hc
        exact Ordering.noConfusion hc

theorem cmpStr_refl (a : List Char) : cmpStr a a = Ordering.eq :=
  cmpStr_eq_eq.mpr rfl

theorem cmpStr_lt_trans :
    ∀ {a b c : List Char}, cmpStr a b = Ordering.lt → cmpStr b c = Ordering.lt →
      cmpStr a c = Ordering.lt := by
  intro a
  induction a with
  | nil =>
    intro b c hab hbc
    cases b with
    | nil => exact absurd hab (by simp [cmpStr])
    | cons y ys =>
      cases c with
      | nil => exact absurd hbc (by simp [cmpStr])
      | cons z zs => simp [cmpStr]
  | cons x xs ih =>
    intro b c hab hbc
    cases b with
    | nil => exact absurd hab (by simp [cmpStr])
    | cons y ys =>
      cases c with
      | nil => exact absurd hbc (by simp [cmpStr])
      | cons z zs =>
        rcases hxy : cmpChar x y with _ | _ | _
        · rcases hyz : cmpChar y z with _ | _ | _
          · exact cmpStr_cons_of_lt
              (cmpChar_eq_lt.mpr (lt_trans (cmpChar_eq_lt.mp hxy) (cmpChar_eq_lt.mp hyz)))
          · have hz : y = z := cmpChar_eq_eq.mp hyz
            exact cmpStr_cons_of_lt (hz ▸ hxy)
          · exact absurd hbc (by rw [cmpStr_cons_of_gt hyz]; simp)
        · have hx : x = y := cmpChar_eq_eq.mp hxy
          subst hx
          rcases hyz : cmpChar x z with _ | _ | _
          · exact cmpStr_cons_of_lt hyz
          · rw [cmpStr_cons_of_eq hxy] at hab
            rw [cmpStr_cons_of_eq hyz] at hbc
            rw [cmpStr_cons_of_eq hyz]
            exact ih hab hbc
          · exact absurd hbc (by rw [cmpStr_cons_of_gt hyz]; simp)
        · exact absurd hab (by rw [cmpStr_cons_of_gt hxy]; simp)

theorem cmpStr_gt_iff :
    ∀ {a b : List Char}, cmpStr a b = Ordering.gt ↔ cmpStr b a = Ordering.lt := by
  intro a
  induction a with
  | nil => intro b; cases b <;> simp [cmpStr]
  | cons x xs ih =>
    intro b
    cases b with
    | nil => simp [cmpStr]
    | cons y ys =>
      rcases hxy : cmpChar x y with _ | _ | _
      · have hyx : cmpChar y x = Ordering.gt := cmpChar_eq_gt.mpr (cmpChar_eq_lt.mp hxy)
        rw [cmpStr_cons_of_lt hxy, cmpStr_cons_of_gt hyx]
        simp
      · have hyx : cmpChar y x = Ordering.eq := cmpChar_eq_eq.mpr (cmpChar_eq_eq.mp hxy).symm
        rw [cmpStr_cons_of_eq hxy, cmpStr_cons_of_eq hyx]
        exact ih
      · have hyx : cmpChar y x = Ordering.lt := cmpChar_eq_lt.mpr (cmpChar_eq_gt.mp hxy)
        rw [cmpStr_cons_of_gt hxy, cmpStr_cons_of_lt hyx]
        simp

theorem strLe_iff {a b : List Char} : strLe a b = true ↔ cmpStr a b ≠ Ordering.gt := by
  unfold strLe
  rcases h : cmpStr a b <;> simp

theorem strLe_of_lt {a b : List Char} (h : cmpStr a b = Ordering.lt) : strLe a b = true := by
  rw [strLe_iff, h]
  simp

theorem strLe_of_eq {a b : List Char} (h : a = b) : strLe a b = true := by
  rw [strLe_iff, cmpStr_eq_eq.mpr h]
  simp

theorem strLe_trans {a b c : List Char} (hab : strLe a b = true) (hbc : strLe b c = true) :
    strLe a c = true := by
  rw [strLe_iff] at hab hbc
  rcases h1 : cmpStr a b with _ | _ | _
  · rcases h2 : cmpStr b c with _ | _ | _
    · exact strLe_of_lt (cmpStr_lt_trans h1 h2)
    · exact strLe_of_lt ((cmpStr_eq_eq.mp h2) ▸ h1)
    · exact absurd h2 hbc
  · rw [strLe_iff, cmpStr_eq_eq.mp h1]
    exact hbc
  · exact absurd h1 hab

theorem strLe_total (a b : List Char) : strLe a b = true ∨ strLe b a = true := by
  rcases h : cmpStr a b with _ | _ | _
  · exact Or.inl (strLe_of_lt h)
  · exact Or.inl (strLe_of_eq (cmpStr_eq_eq.mp h))
  · exact Or.inr (strLe_of_lt (cmpStr_gt_iff.mp h))

theorem strLt_of_le_of_ne {a b : List Char} (hle : strLe a b = true) (hne : a ≠ b) :
    cmpStr a b = Ordering.lt := by
  rw [strLe_iff] at hle
  rcases h : cmpStr a b with _ | _ | _
  · rfl
  · exact absurd (cmpStr_eq_eq.mp h) hne
  · exact absurd h hle

/-! ## `Vec::sort` and `Vec::dedup` (main.rs lines 118-121)

`Vec::sort` is a stable sort by `Ord::cmp`.  Over `String`s the order is
total and antisymmetric (`cmpStr_eq_eq`), so the sorted rearrangement of a
vector is unique and any correct sorting algorithm computes the same list;
the model uses a structurally recursive insertion sort.  `Vec::dedup`
removes *consecutive* duplicate elements, keeping the first of each run. -/

def insertLe (le : List Char → List Char → Bool) (x : List Char) :
    List (List Char) → List (List Char)
  | [] => [x]
  | y :: t => if le x y then x :: y :: t else y :: insertLe le x t

def sortLe (le : List Char → List Char → Bool) : List (List Char) → List (List Char)
  | [] => []
  | x :: t => insertLe le x (sortLe le t)

def dedupTail (prev : List Char) : List (List Char) → List (List Char)
  | [] => []
  | b :: t => if prev = b then dedupTail prev t else b :: dedupTail b t

def dedupRust : List (List Char) → List (List Char)
  | [] => []
  | a :: t => a :: dedupTail a t

theorem insertLe_perm (le : List Char → List Char → Bool) (x : List Char) :
    ∀ l : List (List Char), (insertLe le x l).Perm (x :: l) := by
  intro l
  induction l with
  | nil => simp [insertLe]
  | cons y t ih =>
    unfold insertLe
    split_ifs
    · exact List.Perm.refl _
    · exact List.Perm.trans (List.Perm.cons y ih) (List.Perm.swap x y t)

theorem sortLe_perm (le : List Char → List Char → Bool) :
    ∀ l : List (List Char), (sortLe le l).Perm l := by
  intro l
  induction l with
  | nil => simp [sortLe]
  | cons x t ih =>
    exact List.Perm.trans (insertLe_perm le x (sortLe le t)) (List.Perm.cons x ih)

theorem mem_insertLe {le : List Char → List Char → Bool} {x z : List Char}
    {l : List (List Char)} (h : z ∈ insertLe le x l) : z = x ∨ z ∈ l := by
  have := ((insertLe_perm le x l).mem_iff).mp h
  simpa using this

theorem pairwise_insertLe {x : List Char} {l : List (List Char)}
    (h : List.Pairwise (fun a b => strLe a b = true) l) :
    List.Pairwise (fun a b => strLe a b = true) (insertLe strLe x l) := by
  induction l with
  | nil => simp [insertLe]
  | cons y t ih =>
    rcases List.pairwise_cons.mp h with ⟨hy, ht⟩
    unfold insertLe
    split_ifs with hxy
    · refine List.pairwise_cons.mpr ⟨?_, h⟩
      intro z hz
      rcases List.mem_cons.mp hz with hzy | hzt
      · exact hzy ▸ hxy
      · exact strLe_trans hxy (hy z hzt)
    · have hyx : strLe y x = true := by
        rcases strLe_total x y with h1 | h1
        · exact absurd h1 hxy
        · exact h1
      refine List.pairwise_cons.mpr ⟨?_, ih ht⟩
      intro z hz
      rcases mem_insertLe hz with hzx | hzt
      · exact hzx ▸ hyx
      · exact hy z hzt

theorem pairwise_sortLe (l : List (List Char)) :
    List.Pairwise (fun a b => strLe a b = true) (sortLe strLe l) := by
  induction l with
  | nil => simp [sortLe]
  | cons x t ih => exact pairwise_insertLe ih

theorem dedupTail_sub {z : List Char} :
    ∀ {prev : List Char} {l : List (List Char)}, z ∈ dedupTail prev l → z ∈ l := by
  intro prev l
  induction l generalizing prev with
  | nil => simp [dedupTail]
  | cons b t ih =>
    unfold dedupTail
    split_ifs with hpb
    · intro h
      exact List.mem_cons_of_mem b (ih h)
    · intro h
      rcases List.mem_cons.mp h with hzb | hzt
      · exact hzb ▸ List.mem_cons_self b t
      · exact List.mem_cons_of_mem b (ih hzt)

theorem mem_dedupTail {z : List Char} :
    ∀ {prev : List Char} {l : List (List Char)}, z ∈ l → z = prev ∨ z ∈ dedupTail prev l := by
  intro prev l
  induction l generalizing prev with
  | nil => simp
  | cons b t ih =>
    intro h
    unfold dedupTail
    split_ifs with hpb
    · rcases List.mem_cons.mp h with hzb | hzt
      · exact Or.inl (hzb.trans hpb.symm)
      · exact ih hzt
    · rcases List.mem_cons.mp h with hzb | hzt
      · exact Or.inr (hzb ▸ List.mem_cons_self b _)
      · rcases @ih b hzt with hzb | hmem
        · exact Or.inr (hzb ▸ List.mem_cons_self b _)
        · exact Or.inr (List.mem_cons_of_mem b hmem)

theorem mem_dedupRust {z : List Char} {l : List (List Char)} :
    z ∈ dedupRust l ↔ z ∈ l := by
  cases l with
  | nil => simp [dedupRust]
  | cons a t =>
    unfold dedupRust
    constructor
    · intro h
      rcases List.mem_cons.mp h with hza | hzt
      · exact hza ▸ List.mem_cons_self a t
      · exact List.mem_cons_of_mem a (dedupTail_sub hzt)
    · intro h
      rcases List.mem_cons.mp h with hza | hzt
      · exact hza ▸ List.mem_cons_self a _
      · rcases @mem_dedupTail z a t hzt with hza | hmem
        · exact hza ▸ List.mem_cons_self a _
        · exact List.mem_cons_of_mem a hmem

/-- On a run-sorted tail, `dedupTail` yields a strictly increasing list all
strictly above `prev`. -/
theorem dedupTail_strict :
    ∀ {l : List (List Char)} {prev : List Char},
      List.Chain (fun a b => strLe a b = true) prev l →
      List.Pairwise (fun a b => cmpStr a b = Ordering.lt) (dedupTail prev l) ∧
        ∀ z ∈ dedupTail prev l, cmpStr prev z = Ordering.lt := by
  intro l
  induction l with
  | nil => intro prev _; simp [dedupTail]
  | cons b t ih =>
    intro prev hchain
    rcases List.chain_cons.mp hchain with ⟨hpb, hbt⟩
    unfold dedupTail
    split_ifs with hpbEq
    · exact ih (hpbEq ▸ hbt)
    · rcases ih hbt with ⟨hpair, habove⟩
      have hpbLt : cmpStr prev b = Ordering.lt := strLt_of_le_of_ne hpb hpbEq
      refine ⟨List.pairwise_cons.mpr ⟨habove, hpair⟩, ?_⟩
      intro z hz
      rcases List.mem_cons.mp hz with hzb | hzt
      · exact hzb ▸ hpbLt
      · exact cmpStr_lt_trans hpbLt (habove z hzt)

theorem chain_of_pairwise {α : Type} {R : α → α → Prop} :
    ∀ {l : List α} {a : α}, List.Pairwise R (a :: l) → List.Chain R a l := by
  intro l
  induction l with
  | nil => intro a _; exact List.Chain.nil
  | cons b t ih =>
    intro a h
    rcases List.pairwise_cons.mp h with ⟨ha, ht⟩
    exact List.chain_cons.mpr ⟨ha b (List.mem_cons_self b t), ih ht⟩

theorem dedupRust_strict {l : List (List Char)}
    (h : List.Pairwise (fun a b => strLe a b = true) l) :
    List.Pairwise (fun a b => cmpStr a b = Ordering.lt) (dedupRust l) := by
  cases l with
  | nil => simp [dedupRust]
  | cons a t =>
    rcases dedupTail_strict (chain_of_pairwise h) with ⟨hpair, habove⟩
    exact List.pairwise_cons.mpr ⟨fun z hz => habove z hz, hpair⟩

/-! ## `slice::binary_search_by` (Rust standard library)

The loop of `binary_search_by`, as in the Rust standard library: probe
`mid = left + size / 2`, recurse on `Less`/`Greater`, stop on `Equal`; the
caller only uses `.is_ok()`, so the model returns whether an `Equal` probe
was found.  The recursion is driven by a fuel argument; `length + 1` fuel
is more than the loop can consume since the interval shrinks every step. -/

def binarySearchLoop {α : Type} (xs : List α) (d : α) (f : α → Ordering) :
    Nat → Nat → Nat → Bool
  | 0, _, _ => false
  | fuel + 1, left, right =>
    if left < right then
      let size := right - left
      let mid := left + size / 2
      match f (xs.getD mid d) with
      | Ordering.lt => binarySearchLoop xs d f fuel (mid + 1) right
      | Ordering.gt => binarySearchLoop xs d f fuel left mid
      | Ordering.eq => true
    else false

def binary_search_by {α : Type} (xs : List α) (d : α) (f : α → Ordering) : Bool :=
  binarySearchLoop xs d f (xs.length + 1) 0 xs.length

/-- The same loop where the comparator itself may fail (a Rust panic site);
`none` is an out-of-bounds string slice inside the comparator. -/
def binarySearchLoopChecked {α : Type} (xs : List α) (d : α) (f : α → Option Ordering) :
    Nat → Nat → Nat → Option Bool
  | 0, _, _ => some false
  | fuel + 1, left, right =>
    if left < right then
      let size := right - left
      let mid := left + size / 2
      match f (xs.getD mid d) with
      | none => none
      | some Ordering.lt => binarySearchLoopChecked xs d f fuel (mid + 1) right
      | some Ordering.gt => binarySearchLoopChecked xs d f fuel left mid
      | some Ordering.eq => some true
    else some false

def binary_search_by_checked {α : Type} (xs : List α) (d : α) (f : α → Option Ordering) :
    Option Bool :=
  binarySearchLoopChecked xs d f (xs.length + 1) 0 xs.length

/-! ## `impl Pattern for String` (main.rs lines 103-130): the Prefix strategy -/

/-- `[0-9a-f]`: one lowercase hex character. -/
def isLowerHexDigit (c : Char) : Bool :=
  decide (('0' ≤ c ∧ c ≤ '9') ∨ ('a' ≤ c ∧ c ≤ 'f'))

/-- Denotation of `ADDRESS_PATTERN` (main.rs line 33), the anchored regex
`[0-9a-f]{1,40}` matched against the whole string. -/
def addressPatternMatches (s : List Char) : Bool :=
  s.all isLowerHexDigit && decide (1 ≤ s.length) && decide (s.length ≤ ADDRESS_LENGTH)

def invalidCharsMsg : String := "Pattern contains invalid characters"

/-- `<String as Pattern>::parse` (main.rs lines 108-116).  Rust lowercases
with Unicode `str::to_lowercase`; on the ASCII inputs the hex check can
accept, that is per-character lowering, which `Char.toLower` models. -/
def StringPat.parse (s : List Char) : Except String (List Char) :=
  let t := s.map Char.toLower
  if addressPatternMatches t then Except.ok t else Except.error invalidCharsMsg

/-- `<String as Pattern>::matches` (main.rs lines 104-106): `str::starts_with`. -/
def StringPat.matches (pat s : List Char) : Bool :=
  s.take pat.length == pat

/-- `<String as Pattern>::postprocess_vec` (main.rs lines 118-121):
`vec.sort(); vec.dedup();`. -/
def StringPat.postprocess_vec (v : List (List Char)) : List (List Char) :=
  dedupRust (sortLe strLe v)

/-- `<String as Pattern>::contains_vec` (main.rs lines 124-129): binary
search whose comparator compares each probed pattern against the address's
leading slice of the pattern's length, `&address[0..item.len()]`. -/
def StringPat.contains_vec (vec : List (List Char)) (address : List Char) : Bool :=
  binary_search_by vec [] (fun item => cmpStr item (address.take item.length))

/-- `&address[0..n]` as Rust evaluates it: panics (`none`) when `n` exceeds
the string's length.  (The char-boundary panic cannot fire on the ASCII
strings this program slices.) -/
def sliceTo (s : List Char) (n : Nat) : Option (List Char) :=
  if n ≤ s.length then some (s.take n) else none

/-- `contains_vec` with the panic behaviour of the comparator's string
slice made explicit. -/
def StringPat.contains_vec_checked (vec : List (List Char)) (address : List Char) :
    Option Bool :=
  binary_search_by_checked vec []
    (fun item => (sliceTo address item.length).map (fun s => cmpStr item s))

/-! ## `impl Pattern for Regex` (main.rs lines 68-101): the Regex strategy

The `regex` crate is external.  A compiled case-insensitive pattern is
modelled by its matching core: the set of exact strings it can match,
as a Boolean predicate.  `Regex::is_match` is an unanchored search: it
succeeds iff some contiguous substring is matched by the core. -/

structure CompiledRegex where
  core : List Char → Bool

/-- `<Regex as Pattern>::matches` (main.rs lines 69-71): `Regex::is_match`,
an unanchored search over all contiguous substrings. -/
def RegexPat.matches (r : CompiledRegex) (s : List Char) : Bool :=
  (List.range (s.length + 1)).any fun i =>
    (List.range (s.length - i + 1)).any fun j => r.core ((s.drop i).take j)

/-- `<Regex as Pattern>::contains_vec` (main.rs lines 90-100): linear scan,
returning at the first pattern that matches. -/
def RegexPat.contains_vec : List CompiledRegex → List Char → Bool
  | [], _ => false
  | p :: rest, address =>
    if RegexPat.matches p address then true else RegexPat.contains_vec rest address

/-- `<Regex as Pattern>::postprocess_vec` (main.rs lines 86-88): does nothing. -/
def RegexPat.postprocess_vec (v : List CompiledRegex) : List CompiledRegex := v

/-! ## `PatternVec::new` (main.rs lines 155-191)

The loop over the raw pattern strings: blank strings are skipped, each
parse failure is reported as a `(rawPattern, error)` pair and skipped,
successes are pushed in order; then `postprocess_vec` runs once. -/

def patternVecLoop {P : Type} (parseFn : List Char → Except String P) :
    List (List Char) → List P × List (List Char × String)
  | [] => ([], [])
  | r :: rest =>
    let tail := patternVecLoop parseFn rest
    if r.isEmpty then tail
    else
      match parseFn r with
      | Except.ok p => (p :: tail.1, tail.2)
      | Except.error e => (tail.1, (r, e) :: tail.2)

def PatternVec.new {P : Type} (parseFn : List Char → Except String P)
    (postFn : List P → List P) (raws : List (List Char)) : List P :=
  postFn (patternVecLoop parseFn raws).1

/-! ## Controller entry (main.rs lines 276-337) and the worker loop -/

/-- What `main_pattern_type_selected` does right after building the
`PatternVec`: an empty set prints an error and exits the process with code
1 before any thread is spawned; otherwise `num_cpus::get()` worker threads
are spawned. -/
inductive ControllerStart
  | exitProcess (code : Nat)
  | spawnWorkers (threadCount : Nat)
deriving DecidableEq

def main_pattern_type_selected {P : Type} (patterns : List P) (threadCount : Nat) :
    ControllerStart :=
  if patterns.isEmpty then ControllerStart.exitProcess 1
  else ControllerStart.spawnWorkers threadCount

/-- `BruteforceResult` (main.rs lines 56-59): both fields already
hex-encoded. -/
structure BruteforceResult where
  address : List Char
  private_key : List Char

def U32_MOD : Nat := 4294967296

/-- The state a worker iteration touches: the shared result slot and the
shared `iterations_this_second` counter (a `u32`). -/
structure WorkerState where
  result : Option BruteforceResult
  iterations_this_second : Nat

/-- One pass of the worker's `'dance` loop (main.rs lines 345-372), given
the candidate the iteration would generate: check the result slot at the
loop head (terminate if occupied), test the fresh candidate's address
against the pattern set; on a match store the result and terminate without
touching the counter, on no match increment the counter and continue.
Returns the new state and whether the loop continues. -/
def workerIteration (containsFn : List Char → Bool) (cand : BruteforceResult)
    (st : WorkerState) : WorkerState × Bool :=
  if st.result.isSome then (st, false)
  else if containsFn cand.address then
    ({ st with result := some cand }, false)
  else
    ({ st with iterations_this_second := (st.iterations_this_second + 1) % U32_MOD }, true)

/-! ## Address derivation (main.rs lines 208-216 and 355-361)

`to_hex_string` formats each byte with `{:02x}`: two lowercase hex digits.
The worker derives the address from the serialized uncompressed public key
(65 bytes, a constant `0x04` tag byte first): it drops the tag byte, hashes
the remaining 64 bytes with Keccak-256 (the `tiny_keccak` crate, modelled
as a function parameter producing the 32-byte digest) and hex-encodes the
digest from byte `ADDRESS_BYTE_INDEX` on, i.e. its last 20 bytes.  Every
step is a function of its input, so a fixed keypair always derives the
same address. -/

def hexDigitChar (n : Nat) : Char :=
  Char.ofNat (if n < 10 then 48 + n else 87 + n)

def byteHex (b : Nat) : List Char :=
  [hexDigitChar (b / 16), hexDigitChar (b % 16)]

def to_hex_string : List Nat → Nat → List Char
  | [], _ => []
  | b :: rest, expected => byteHex b ++ to_hex_string rest expected

def deriveAddress (keccak256 : List Nat → List Nat) (serializedPubKey : List Nat) :
    List Char :=
  to_hex_string ((keccak256 (serializedPubKey.drop 1)).drop ADDRESS_BYTE_INDEX) 40

/-! ## Supporting lemmas -/

theorem to_hex_string_length (l : List Nat) (e : Nat) :
    (to_hex_string l e).length = 2 * l.length := by
  induction l with
  | nil => rfl
  | cons b rest ih =>
    unfold to_hex_string
    rw [List.length_append, ih]
    simp [byteHex, List.length_cons]
    omega

theorem hexDigitChar_hex : ∀ m : Fin 16, isLowerHexDigit (hexDigitChar m.val) = true := by
  decide

theorem to_hex_string_hex {l : List Nat} {e : Nat} (hb : ∀ b ∈ l, b < 256) :
    ∀ c ∈ to_hex_string l e, isLowerHexDigit c = true := by
  induction l with
  | nil => intro c hc; exact absurd hc (by simp [to_hex_string])
  | cons b rest ih =>
    intro c hc
    unfold to_hex_string at hc
    have hb256 : b < 256 := hb b (List.mem_cons_self b rest)
    rcases List.mem_append.mp hc with h1 | h2
    · unfold byteHex at h1
      rcases List.mem_cons.mp h1 with he | h1t
      · rw [he]
        exact hexDigitChar_hex ⟨b / 16, by omega⟩
      · rcases List.mem_cons.mp h1t with he | h0
        · rw [he]
          exact hexDigitChar_hex ⟨b % 16, by omega⟩
        · exact absurd h0 (by simp)
    · exact ih (fun x hx => hb x (List.mem_cons_of_mem b hx)) c h2

theorem bsLoopChecked_eq {α : Type} (xs : List α) (d : α) (f : α → Ordering)
    (fc : α → Option Ordering) (hf : ∀ x ∈ xs, fc x = some (f x)) :
    ∀ fuel left right, right ≤ xs.length →
      binarySearchLoopChecked xs d fc fuel left right =
        some (binarySearchLoop xs d f fuel left right) := by
  intro fuel
  induction fuel with
  | zero => intro left right _; rfl
  | succ n ih =>
    intro left right hr
    unfold binarySearchLoop binarySearchLoopChecked
    by_cases hlr : left < right
    · rw [if_pos hlr, if_pos hlr]
      have hmid : left + (right - left) / 2 < right := by
        have hd : (right - left) / 2 < right - left := Nat.div_lt_self (by omega) (by omega)
        omega
      have hmidlen : left + (right - left) / 2 < xs.length := by omega
      have hmem : xs.getD (left + (right - left) / 2) d ∈ xs := by
        rw [List.getD_eq_getElem xs d hmidlen]
        exact List.getElem_mem hmidlen
      simp only []
      rw [hf _ hmem]
      rcases hv : f (xs.getD (left + (right - left) / 2) d) with _ | _ | _
      · exact ih _ _ hr
      · rfl
      · exact ih _ _ (by omega)
    · rw [if_neg hlr, if_neg hlr]

theorem regex_matches_iff (r : CompiledRegex) (s : List Char) :
    RegexPat.matches r s = true ↔
      ∃ i j, i ≤ s.length ∧ i + j ≤ s.length ∧ r.core ((s.drop i).take j) = true := by
  unfold RegexPat.matches
  rw [List.any_eq_true]
  constructor
  · rintro ⟨i, hi, hj⟩
    rw [List.mem_range] at hi
    rw [List.any_eq_true] at hj
    rcases hj with ⟨j, hjr, hc⟩
    rw [List.mem_range] at hjr
    exact ⟨i, j, by omega, by omega, hc⟩
  · rintro ⟨i, j, hi, hij, hc⟩
    exact ⟨i, List.mem_range.mpr (by omega),
      List.any_eq_true.mpr ⟨j, List.mem_range.mpr (by omega), hc⟩⟩

/-! ## The claims -/

/-- C1: the claim says `contains` is true iff the address starts with some
pattern of the postprocessed set.  The code violates it: with the valid
postprocessed set `["ab", "abc"]` and the 40-character lowercase hex
address `"abd" ++ 37 × '0'`, the address starts with the set's pattern
`"ab"`, yet `contains_vec` returns `false` — the binary search probes
`"abc"`, compares it `Less` than `"abd"`, discards the left half and never
examines `"ab"`.  The conjuncts check that the input satisfies every
precondition of the claim (each pattern parses, the set is a fixed point
of postprocessing, the address is 40 lowercase hex characters). -/
theorem string_contains_vec_misses_match :
    StringPat.parse ['a', 'b'] = Except.ok ['a', 'b'] ∧
    StringPat.parse ['a', 'b', 'c'] = Except.ok ['a', 'b', 'c'] ∧
    StringPat.postprocess_vec [['a', 'b'], ['a', 'b', 'c']] = [['a', 'b'], ['a', 'b', 'c']] ∧
    ('a' :: 'b' :: 'd' :: List.replicate 37 '0').length = ADDRESS_LENGTH ∧
    addressPatternMatches ('a' :: 'b' :: 'd' :: List.replicate 37 '0') = true ∧
    ['a', 'b'] ∈ [['a', 'b'], ['a', 'b', 'c']] ∧
    StringPat.matches ['a', 'b'] ('a' :: 'b' :: 'd' :: List.replicate 37 '0') = true ∧
    StringPat.contains_vec [['a', 'b'], ['a', 'b', 'c']]
      ('a' :: 'b' :: 'd' :: List.replicate 37 '0') = false :=
  ⟨rfl, rfl, by decide, by decide, by decide, by decide, by decide, by decide⟩

/-- C2: for any 65-byte serialized uncompressed public key and any Keccak-256
(modelled as the function the `tiny_keccak` crate computes, with 32-byte
output), the derived address is the lowercase hex encoding of the last 20
bytes of the digest of the 64-byte coordinate pair (the serialization with
its leading tag byte dropped), and it is exactly 40 lowercase hex
characters.  Determinism is inherent: `deriveAddress` is a function of the
keypair's serialization. -/
theorem derive_address_spec (keccak256 : List Nat → List Nat) (pk : List Nat)
    (hser : pk.length = 65)
    (hdig : (keccak256 (pk.drop 1)).length = KECCAK_OUTPUT_BYTES)
    (hbytes : ∀ b ∈ keccak256 (pk.drop 1), b < 256) :
    (pk.drop 1).length = 64 ∧
    deriveAddress keccak256 pk =
      to_hex_string
        ((keccak256 (pk.drop 1)).drop ((keccak256 (pk.drop 1)).length - ADDRESS_BYTES)) 40 ∧
    (deriveAddress keccak256 pk).length = ADDRESS_LENGTH ∧
    (∀ c ∈ deriveAddress keccak256 pk, isLowerHexDigit c = true) := by
  refine ⟨?_, ?_, ?_, ?_⟩
  · rw [List.length_drop, hser]
  · have h12 : (keccak256 (pk.drop 1)).length - ADDRESS_BYTES = ADDRESS_BYTE_INDEX := by
      rw [hdig]
      rfl
    rw [h12]
    rfl
  · unfold deriveAddress
    rw [to_hex_string_length, List.length_drop, hdig]
    rfl
  · intro c hc
    exact to_hex_string_hex (fun b hb => hbytes b (List.mem_of_mem_drop hb)) c hc

/-- C2 witness: the theorem applied to a concrete digest function and a
concrete 65-byte serialization. -/
theorem derive_address_witness :
    (deriveAddress (fun _ => List.range 32) (List.range 65)).length = ADDRESS_LENGTH :=
  (derive_address_spec (fun _ => List.range 32) (List.range 65) (by decide) (by decide)
    (by decide)).2.2.1

/-- C3 counterexample: a worker iteration whose freshly generated candidate
matches (the result slot was empty, so the candidate is generated and the
result is claimed) leaves the attempt counter untouched — it is not
incremented "regardless of match outcome". -/
theorem worker_match_skips_counter :
    (workerIteration (fun _ => true) (BruteforceResult.mk ['a'] ['b'])
        (WorkerState.mk none 0)).1.result = some (BruteforceResult.mk ['a'] ['b']) ∧
    (workerIteration (fun _ => true) (BruteforceResult.mk ['a'] ['b'])
        (WorkerState.mk none 0)).1.iterations_this_second = 0 :=
  ⟨rfl, rfl⟩

/-- C3 amended: in an iteration that generates a candidate (result slot
empty at the loop head), the shared counter is incremented exactly once
(as a `u32`) when the candidate does not match, and left unchanged when it
matches. -/
theorem worker_counter_increment (containsFn : List Char → Bool)
    (cand : BruteforceResult) (st : WorkerState) (h : st.result = none) :
    (workerIteration containsFn cand st).1.iterations_this_second =
      (if containsFn cand.address then st.iterations_this_second
       else (st.iterations_this_second + 1) % U32_MOD) := by
  unfold workerIteration
  rw [h]
  by_cases hc : containsFn cand.address
  · simp [hc]
  · simp [hc]

/-- C3 amended, witness at a concrete non-matching iteration. -/
theorem worker_counter_increment_witness :
    (workerIteration (fun _ => false) (BruteforceResult.mk ['a'] ['b'])
        (WorkerState.mk none 0)).1.iterations_this_second =
      (if (fun _ : List Char => false) (BruteforceResult.mk ['a'] ['b']).address then 0
       else (0 + 1) % U32_MOD) :=
  worker_counter_increment (fun _ => false) (BruteforceResult.mk ['a'] ['b'])
    (WorkerState.mk none 0) rfl

/-- C4: in an iteration that generates a candidate (result slot empty at
the loop head), a match stores the candidate in the result slot and stops
the worker's loop without touching the counter; a non-match increments the
counter (as a `u32`) and keeps looping with the result slot still empty. -/
theorem worker_iteration_spec (containsFn : List Char → Bool)
    (cand : BruteforceResult) (st : WorkerState) (h : st.result = none) :
    (containsFn cand.address = true →
      workerIteration containsFn cand st = ({ st with result := some cand }, false)) ∧
    (containsFn cand.address = false →
      workerIteration containsFn cand st =
        ({ st with iterations_this_second := (st.iterations_this_second + 1) % U32_MOD },
          true)) := by
  unfold workerIteration
  rw [h]
  constructor
  · intro hc
    simp [hc]
  · intro hc
    simp [hc]

/-- C4 witness: a concrete matching iteration claims the slot, terminates,
and leaves the counter at its old value. -/
theorem worker_iteration_witness :
    workerIteration (fun _ => true) (BruteforceResult.mk ['a'] ['b'])
        (WorkerState.mk none 5) =
      (WorkerState.mk (some (BruteforceResult.mk ['a'] ['b'])) 5, false) :=
  (worker_iteration_spec (fun _ => true) (BruteforceResult.mk ['a'] ['b'])
      (WorkerState.mk none 5) rfl).1 rfl

/-- C5: `postprocess_vec` for the Prefix strategy sorts ascending and
removes exact duplicates only — the result is sorted, has no duplicates,
and keeps exactly the input's elements (so a pattern is never collapsed
into a shorter pattern that is its leading substring); and the full
`PatternVec` construction on the raw patterns `["abc", "abc", "ab"]`
produces exactly `["ab", "abc"]`. -/
theorem postprocess_vec_spec :
    (∀ v : List (List Char),
        List.Pairwise (fun a b => strLe a b = true) (StringPat.postprocess_vec v) ∧
        (∀ x, x ∈ StringPat.postprocess_vec v ↔ x ∈ v) ∧
        (StringPat.postprocess_vec v).Nodup) ∧
    PatternVec.new StringPat.parse StringPat.postprocess_vec
        [['a', 'b', 'c'], ['a', 'b', 'c'], ['a', 'b']] = [['a', 'b'], ['a', 'b', 'c']] := by
  constructor
  · intro v
    unfold StringPat.postprocess_vec
    have hsorted := pairwise_sortLe v
    have hstrict := dedupRust_strict hsorted
    refine ⟨hstrict.imp (fun h => strLe_of_lt h), ?_, ?_⟩
    · intro x
      rw [mem_dedupRust]
      exact (sortLe_perm strLe v).mem_iff
    · refine hstrict.imp ?_
      intro a b h he
      rw [he, cmpStr_refl] at h
      exact Ordering.noConfusion h
  · decide

/-- C6: the Prefix `parse` lowercases its input and succeeds with the
lowercased string exactly when that string is 1 to 40 lowercase hex
characters; in every other case it returns the invalid-characters error.
It rejects `"xyz"` and a 41-character string, and accepts `"abc"`. -/
theorem parse_hex_spec :
    (∀ s t : List Char,
        StringPat.parse s = Except.ok t ↔
          (t = s.map Char.toLower ∧ (∀ c ∈ t, isLowerHexDigit c = true) ∧
            1 ≤ t.length ∧ t.length ≤ 40)) ∧
    (∀ s : List Char,
        StringPat.parse s = Except.ok (s.map Char.toLower) ∨
        StringPat.parse s = Except.error invalidCharsMsg) ∧
    StringPat.parse ['x', 'y', 'z'] = Except.error invalidCharsMsg ∧
    StringPat.parse (List.replicate 41 'a') = Except.error invalidCharsMsg ∧
    StringPat.parse ['a', 'b', 'c'] = Except.ok ['a', 'b', 'c'] := by
  refine ⟨?_, ?_, rfl, rfl, rfl⟩
  · intro s t
    unfold StringPat.parse
    by_cases h : addressPatternMatches (s.map Char.toLower) = true
    · rw [if_pos h]
      simp only [Except.ok.injEq]
      constructor
      · intro ht
        have h' := h
        unfold addressPatternMatches at h'
        rw [Bool.and_eq_true, Bool.and_eq_true] at h'
        obtain ⟨⟨h1, h2⟩, h3⟩ := h'
        subst ht
        exact ⟨rfl, List.all_eq_true.mp h1, of_decide_eq_true h2, of_decide_eq_true h3⟩
      · intro hr
        exact hr.1.symm
    · rw [if_neg h]
      refine iff_of_false (by simp) ?_
      rintro ⟨ht, hall, h1, h40⟩
      apply h
      subst ht
      unfold addressPatternMatches
      rw [Bool.and_eq_true, Bool.and_eq_true]
      exact ⟨⟨List.all_eq_true.mpr hall, decide_eq_true h1⟩, decide_eq_true h40⟩
  · intro s
    unfold StringPat.parse
    by_cases h : addressPatternMatches (s.map Char.toLower) = true
    · rw [if_pos h]
      exact Or.inl rfl
    · rw [if_neg h]
      exact Or.inr rfl

/-- C7: the Regex `contains` is a linear scan that succeeds exactly when
some compiled pattern in the set matches somewhere inside the address —
unanchored: the matched piece is any contiguous substring
`(address.drop i).take j`, not only a leading one. -/
theorem regex_contains_vec_spec (vec : List CompiledRegex) (a : List Char) :
    RegexPat.contains_vec vec a = true ↔
      ∃ r ∈ vec, ∃ i j, i ≤ a.length ∧ i + j ≤ a.length ∧
        r.core ((a.drop i).take j) = true := by
  induction vec with
  | nil => simp [RegexPat.contains_vec]
  | cons p rest ih =>
    unfold RegexPat.contains_vec
    by_cases hp : RegexPat.matches p a = true
    · rw [if_pos hp]
      exact iff_of_true rfl
        ⟨p, List.mem_cons_self p rest, (regex_matches_iff p a).mp hp⟩
    · rw [if_neg hp, ih]
      constructor
      · rintro ⟨r, hr, hw⟩
        exact ⟨r, List.mem_cons_of_mem p hr, hw⟩
      · rintro ⟨r, hr, hw⟩
        rcases List.mem_cons.mp hr with hrp | hrr
        · exact absurd ((regex_matches_iff p a).mpr (hrp ▸ hw)) hp
        · exact ⟨r, hrr, hw⟩

/-- C8: right after the `PatternVec` is built, the controller exits the
process with code 1 when the set is empty — before any worker thread is
spawned — and spawns the worker pool (never taking the error branch) when
it is not. -/
theorem controller_empty_set_spec {P : Type} (parseFn : List Char → Except String P)
    (postFn : List P → List P) (raws : List (List Char)) (threadCount : Nat) :
    (PatternVec.new parseFn postFn raws = [] →
      main_pattern_type_selected (PatternVec.new parseFn postFn raws) threadCount =
        ControllerStart.exitProcess 1) ∧
    (PatternVec.new parseFn postFn raws ≠ [] →
      main_pattern_type_selected (PatternVec.new parseFn postFn raws) threadCount =
        ControllerStart.spawnWorkers threadCount) := by
  constructor
  · intro h
    simp [main_pattern_type_selected, List.isEmpty_iff, h]
  · intro h
    simp [main_pattern_type_selected, List.isEmpty_iff, h]

/-- C9: `PatternVec::new` never aborts on a parse failure — it is a total
function whose pattern list is exactly the successfully parsed non-blank
raw strings in order (then postprocessed), and whose report stream is
exactly the `(rawPattern, error)` pair of every non-blank raw string that
failed to parse, in order. -/
theorem pattern_vec_new_spec {P : Type} (parseFn : List Char → Except String P)
    (postFn : List P → List P) (raws : List (List Char)) :
    (patternVecLoop parseFn raws).1 =
      raws.filterMap (fun r => if r.isEmpty then none else (parseFn r).toOption) ∧
    (patternVecLoop parseFn raws).2 =
      raws.filterMap (fun r =>
        if r.isEmpty then none
        else
          match parseFn r with
          | Except.ok _ => none
          | Except.error e => some (r, e)) ∧
    PatternVec.new parseFn postFn raws =
      postFn (raws.filterMap (fun r => if r.isEmpty then none else (parseFn r).toOption)) := by
  have key : ∀ rs : List (List Char),
      (patternVecLoop parseFn rs).1 =
        rs.filterMap (fun r => if r.isEmpty then none else (parseFn r).toOption) ∧
      (patternVecLoop parseFn rs).2 =
        rs.filterMap (fun r =>
          if r.isEmpty then none
          else
            match parseFn r with
            | Except.ok _ => none
            | Except.error e => some (r, e)) := by
    intro rs
    induction rs with
    | nil => exact ⟨rfl, rfl⟩
    | cons r rest ih =>
      unfold patternVecLoop
      rw [List.filterMap_cons, List.filterMap_cons]
      by_cases hr : r.isEmpty = true
      · simp only [hr, if_true]
        exact ih
      · simp only [hr, if_false]
        rcases hp : parseFn r with p | e
        · simpa [Except.toOption] using ih
        · simpa [Except.toOption] using ih
  refine ⟨(key raws).1, (key raws).2, ?_⟩
  unfold PatternVec.new
  rw [(key raws).1]

/-- C10: with the invariant `parse` enforces on every stored pattern
(length 1..=40) and a 40-character address, the string slice
`&address[0..item.len()]` inside the binary-search comparator is always in
bounds: the panic-explicit model of `contains` returns `some` of the
panic-free model's answer, never the panic. -/
theorem contains_vec_no_panic (vec : List (List Char)) (address : List Char)
    (hlen : ∀ p ∈ vec, 1 ≤ p.length ∧ p.length ≤ ADDRESS_LENGTH)
    (haddr : address.length = ADDRESS_LENGTH) :
    StringPat.contains_vec_checked vec address =
      some (StringPat.contains_vec vec address) := by
  unfold StringPat.contains_vec_checked StringPat.contains_vec
  unfold binary_search_by binary_search_by_checked
  refine bsLoopChecked_eq vec [] _ _ ?_ _ _ _ (le_refl _)
  intro p hp
  unfold sliceTo
  rw [if_pos (by rw [haddr]; exact (hlen p hp).2)]
  rfl

/-- C10 witness: the theorem applied to a concrete valid set and address. -/
theorem contains_vec_no_panic_witness :
    StringPat.contains_vec_checked [['a', 'b'], ['a', 'b', 'c']] (List.replicate 40 '0') =
      some (StringPat.contains_vec [['a', 'b'], ['a', 'b', 'c']] (List.replicate 40 '0')) :=
  contains_vec_no_panic [['a', 'b'], ['a', 'b', 'c']] (List.replicate 40 '0')
    (by decide) (by decide)

end Ethaddrgen
